import Mathlib

/-!
Shallow embedding of the price-history / quote-snapshot scripts of the
xMarket repository (`scripts/history.py`, `scripts/history_ohlc.py`,
`scripts/quotes.py`) and proofs about the merge-by-date logic, the
candle normalizer, the coverage checker, the fallback orchestration and
the quote snapshotter.

Python scalar values that flow through the scripts (JSON fields) are
modelled by `JVal`.  A Python `float` is modelled by the exact rational
it denotes; the non-finite floats (`nan`, `±inf`) are collapsed into one
constructor `nfnum` (the scripts never do arithmetic on them, they are
only stored, compared and filtered; CPython returns the argument object
itself for `float(x)` when `x` is already a float, so merged outputs
compare equal through the container identity shortcut, which the
collapsed constructor reproduces).  A Python string is `jstr s p` where
`p` is the finite rational `float(s)` would produce, or `none` when
`float(s)` raises or yields a non-finite value.

Wall-clock inputs (`datetime.now`) are passed in explicitly: a calendar
date is a day number (days since 1970-01-01) and `today` is a parameter
of every definition that reads the clock.
-/

namespace XMarket

/-- A JSON-ish Python scalar as seen by the scripts. -/
inductive JVal where
  | null : JVal
  | num (q : ℚ) : JVal
  | nfnum : JVal
  | jstr (s : String) (parsed : Option ℚ) : JVal
  | other : JVal
deriving DecidableEq

/-- Embedding of `safe_float` (`scripts/history_ohlc.py`): `float(value)`
inside try/except, returning `None` on failure or a non-finite result. -/
def safe_float : JVal → Option ℚ
  | .num q => some q
  | .jstr _ (some q) => some q
  | _ => none

/-- Python `isinstance(v, (int, float))`. -/
def isNumber : JVal → Bool
  | .num _ => true
  | .nfnum => true
  | _ => false

/-- Python `float(v)` applied to a value already known to be a number. -/
def pyFloat : JVal → JVal
  | .num q => .num q
  | v => v

/-- Python `isinstance(v, str)`, returning the string when it is one. -/
def strVal : JVal → Option String
  | .jstr s _ => some s
  | _ => none

/-- A fully normalized OHLC candle, as produced by `build_candle`.
Field names follow the local variables of the source. -/
structure Candle where
  date : String
  open_f : ℚ
  high_f : ℚ
  low_f : ℚ
  close_f : ℚ
deriving DecidableEq

/-- Embedding of `build_candle` (`scripts/history_ohlc.py`, lines 61-80):
reject non-string dates and unparsable closes, default the missing
fields, force `high = max(high, open, close)` and
`low = min(low, open, close)`, and finally swap `low`/`high` if
`low > high` (the source's last step, kept verbatim). -/
def build_candle (date open_v high_v low_v close_v : JVal) : Option Candle :=
  match strVal date with
  | none => none
  | some ds =>
    match safe_float close_v with
    | none => none
    | some close_f =>
      let open_f := (safe_float open_v).getD close_f
      let high_f0 := (safe_float high_v).getD (max open_f close_f)
      let low_f0 := (safe_float low_v).getD (min open_f close_f)
      let high_f := max high_f0 (max open_f close_f)
      let low_f := min low_f0 (min open_f close_f)
      if low_f > high_f then
        some { date := ds, open_f := open_f, high_f := low_f, low_f := high_f, close_f := close_f }
      else
        some { date := ds, open_f := open_f, high_f := high_f, low_f := low_f, close_f := close_f }

/-- The boolean guard of the final swap step of `build_candle`, evaluated
on the same intermediate values the source computes; `false` whenever the
guard is never reached (date not a string, or close unusable). -/
def swap_branch_reached (date open_v high_v low_v close_v : JVal) : Bool :=
  match strVal date with
  | none => false
  | some _ =>
    match safe_float close_v with
    | none => false
    | some close_f =>
      let open_f := (safe_float open_v).getD close_f
      let high_f0 := (safe_float high_v).getD (max open_f close_f)
      let low_f0 := (safe_float low_v).getD (min open_f close_f)
      let high_f := max high_f0 (max open_f close_f)
      let low_f := min low_f0 (min open_f close_f)
      decide (low_f > high_f)

/-!
## String comparison

Python compares `str` values lexicographically by code point; `sorted`
and `list.sort` use exactly this order on the date keys.  `lexLe` is the
structural embedding of that comparison (Lean's built-in `String.lt` is
implemented by well-founded recursion on iterators and does not reduce
in the kernel, so the model carries its own comparator).
-/

/-- Lexicographic less-or-equal on code-point lists (Python `<=` on `str`). -/
def lexLe : List Char → List Char → Bool
  | [], _ => true
  | _ :: _, [] => false
  | a :: as, b :: bs =>
    if a.toNat < b.toNat then true
    else if b.toNat < a.toNat then false
    else lexLe as bs

/-- Python `s <= t` on strings. -/
def strLe (s t : String) : Bool := lexLe s.data t.data

/-- The ordering relation used for all date sorting in the model. -/
def sle (a b : String) : Prop := strLe a b = true

/-- Strict version of `sle` (strictly ascending dates). -/
def slt (a b : String) : Prop := sle a b ∧ a ≠ b

instance : DecidableRel sle := fun a b => inferInstanceAs (Decidable (strLe a b = true))

instance : DecidableRel slt := fun _ _ => inferInstanceAs (Decidable (_ ∧ _))

/-- Last-one-wins choice on options (`dor a b` is `a` unless it is `none`). -/
def dor {V : Type} : Option V → Option V → Option V
  | some v, _ => some v
  | none, b => b

/-!
## Records and the date-keyed dictionary

Python `dict` state is modelled by an association list with unique keys:
`dinsert` updates an existing binding in place or appends a new one,
exactly like a CPython dict assignment.  The merge functions only ever
read the dict through `sorted(m.keys())` and `m[d]`, exposed here as
`mapKeys` and `dlookup`.
-/

/-- A raw close-only record as the scripts see it: the result of
`it.get("date")` and `it.get("close")` on an arbitrary JSON object
(a missing key reads as `null`). -/
structure CloseRaw where
  date : JVal
  close : JVal
deriving DecidableEq

/-- An output record of the close-only pipeline: `{date, close}` with
`close = float(c)` of an accepted number. -/
structure CloseRec where
  date : String
  close : JVal
deriving DecidableEq

/-- A raw OHLC record: the five fields read off an arbitrary JSON object. -/
structure OhlcRaw where
  date : JVal
  rawOpen : JVal
  rawHigh : JVal
  rawLow : JVal
  rawClose : JVal
deriving DecidableEq

/-- The validity filter of the close-only `merge_history`
(`scripts/history.py`, lines 367-376): keep the record iff the date is a
string and the close `isinstance (int, float)`; store `float(close)`
under the date key. -/
def normClose (r : CloseRaw) : Option (String × JVal) :=
  match strVal r.date with
  | some d => if isNumber r.close then some (d, pyFloat r.close) else none
  | none => none

/-- The `normalize` helper of the OHLC `merge_history`
(`scripts/history_ohlc.py`, lines 471-474): run the record through
`build_candle`. -/
def normalizeOhlc (r : OhlcRaw) : Option Candle :=
  build_candle r.date r.rawOpen r.rawHigh r.rawLow r.rawClose

/-- The OHLC merge keys the normalized candle under its date. -/
def normOhlc (r : OhlcRaw) : Option (String × Candle) :=
  (normalizeOhlc r).map (fun cd => (cd.date, cd))

/-- Dict assignment `m[d] = v`: replace in place or append. -/
def dinsert {V : Type} (d : String) (v : V) : List (String × V) → List (String × V)
  | [] => [(d, v)]
  | (k, w) :: t => if k = d then (d, v) :: t else (k, w) :: dinsert d v t

/-- Dict read `m.get(d)`: first binding wins (keys are unique anyway). -/
def dlookup {V : Type} (d : String) : List (String × V) → Option V
  | [] => none
  | (k, v) :: t => if k = d then some v else dlookup d t

/-- Keys of the dict, in insertion order. -/
def mapKeys {V : Type} (m : List (String × V)) : List String := m.map Prod.fst

/-- One loop iteration of the merge: insert the record if it is valid. -/
def insStep {A V : Type} (norm : A → Option (String × V))
    (m : List (String × V)) (x : A) : List (String × V) :=
  match norm x with
  | some (d, v) => dinsert d v m
  | none => m

/-- Fold one input array into the dict, skipping invalid records
(the inner loop of both `merge_history` variants). -/
def buildMap {A V : Type} (norm : A → Option (String × V))
    (xs : List A) (m : List (String × V)) : List (String × V) :=
  xs.foldl (insStep norm) m

/-- One step of tracking the value most recently stored under key `k`. -/
def lastStep {A V : Type} (norm : A → Option (String × V)) (k : String)
    (acc : Option V) (x : A) : Option V :=
  match norm x with
  | some (d, v) => if d = k then some v else acc
  | none => acc

/-- The value the dict ends up holding for key `k` after inserting all
valid records of `xs`: the last valid record of `xs` with date `k`. -/
def lastNorm {A V : Type} (norm : A → Option (String × V))
    (xs : List A) (k : String) : Option V :=
  xs.foldl (lastStep norm k) none

/-- The output step shared by both merges:
`[record(d, m[d]) for d in sorted(m.keys())]`. -/
def sortedRecords {V : Type} (m : List (String × V)) : List (String × V) :=
  ((mapKeys m).insertionSort sle).filterMap
    (fun d => (dlookup d m).map (fun v => (d, v)))

/-- The common shape of both `merge_history` variants: insert all of
`old`, then all of `new`, then emit one record per key in ascending key
order. -/
def mergeGen {A V : Type} (norm : A → Option (String × V))
    (old new : List A) : List (String × V) :=
  sortedRecords (buildMap norm new (buildMap norm old []))

/-- Embedding of `merge_history` (`scripts/history.py`, lines 367-376). -/
def merge_history (old new : List CloseRaw) : List CloseRec :=
  (mergeGen normClose old new).map (fun p => ⟨p.1, p.2⟩)

/-- Embedding of `merge_history` (`scripts/history_ohlc.py`,
lines 468-483). -/
def merge_history_ohlc (old new : List OhlcRaw) : List Candle :=
  (mergeGen normOhlc old new).map Prod.snd

/-- How an output record of the close-only pipeline reads back as a raw
record (e.g. when a written artifact is merged again). -/
def closeRecToRaw (r : CloseRec) : CloseRaw := ⟨.jstr r.date none, r.close⟩

/-- How an output candle reads back as a raw OHLC record. -/
def candleToRaw (cd : Candle) : OhlcRaw :=
  ⟨.jstr cd.date none, .num cd.open_f, .num cd.high_f, .num cd.low_f, .num cd.close_f⟩

/-- Find the record with the given date in a close-only series. -/
def closeLookup (d : String) (rs : List CloseRec) : Option JVal :=
  (rs.find? (fun r => decide (r.date = d))).map (fun r => r.close)

/-- Find the candle with the given date in an OHLC series. -/
def candleLookup (d : String) (cs : List Candle) : Option Candle :=
  cs.find? (fun c => decide (c.date = d))

/-- Ordering of keyed records by their date key. -/
def pairLe {V : Type} (p q : String × V) : Prop := sle p.1 q.1

instance {V : Type} : DecidableRel (pairLe (V := V)) :=
  fun p q => inferInstanceAs (Decidable (sle p.1 q.1))

/-- Second definition written from the spec's words, for the
`merge(S, []) == sort_dedup(S)` law: discard records the pipeline
considers invalid, keep the latest record per date, sort ascending by
date.  `keepLast` drops every binding whose date reappears later. -/
def keepLast {V : Type} : List (String × V) → List (String × V)
  | [] => []
  | (d, v) :: t => if d ∈ t.map Prod.fst then keepLast t else (d, v) :: keepLast t

/-- Modelled from the spec: `sort_dedup` for the close-only variant
(sort ascending by date, one record per unique date, later record
winning, invalid records discarded). -/
def sort_dedup (S : List CloseRaw) : List CloseRec :=
  ((keepLast (S.filterMap normClose)).insertionSort pairLe).map
    (fun p => ⟨p.1, p.2⟩)

/-- Modelled from the spec: `sort_dedup` for the OHLC variant (records
pass through the normalizer, which also rejects invalid ones). -/
def sort_dedup_ohlc (S : List OhlcRaw) : List Candle :=
  ((keepLast (S.filterMap normOhlc)).insertionSort pairLe).map Prod.snd

/-!
## Calendar and the coverage checker

`coverage_ok` reads the wall clock; the embedding takes `today` as a day
number (days since 1970-01-01).  `np.busday_count(b, e)` counts the
weekdays (Mon-Fri) in the half-open interval `[b, e)`, negatively when
`e < b`.
-/

/-- Number of `j` in `[0, x)` with `j mod 7 < 5` (weekday count shifted
so that day `0`, 1970-01-01, is a Thursday). -/
def weekdaysBelow (x : Int) : Int := 5 * (x / 7) + min (x % 7) 5

/-- Embedding of `np.busday_count` on day numbers. -/
def busday_count (b e : Int) : Int := weekdaysBelow (e + 3) - weekdaysBelow (b + 3)

/-- Gregorian leap year. -/
def isLeap (y : Nat) : Bool := y % 4 == 0 && (y % 100 != 0 || y % 400 == 0)

/-- Days in a month of the proleptic Gregorian calendar. -/
def daysInMonth (y m : Nat) : Nat :=
  if m = 2 then (if isLeap y then 29 else 28)
  else if m = 4 ∨ m = 6 ∨ m = 9 ∨ m = 11 then 30 else 31

/-- Day number (days since 1970-01-01) of a calendar date, for years
`≥ 1` (Hinnant's `days_from_civil`; all divisions are on non-negative
operands there). -/
def daysFromCivil (y m d : Nat) : Int :=
  let yAdj : Int := if m ≤ 2 then (y : Int) - 1 else (y : Int)
  let era : Int := yAdj / 400
  let yoe : Int := yAdj - era * 400
  let mp : Int := ((m : Int) + 9) % 12
  let doy : Int := (153 * mp + 2) / 5 + (d : Int) - 1
  let doe : Int := yoe * 365 + yoe / 4 - yoe / 100 + doy
  era * 146097 + doe - 719468

/-- A decimal digit. -/
def digitVal (c : Char) : Option Nat :=
  if c.isDigit then some (c.toNat - '0'.toNat) else none

/-- Embedding of `datetime.fromisoformat(s).date()` on the date-only
format `YYYY-MM-DD` the artifacts use: returns the day number, `none`
when parsing raises `ValueError`. -/
def parseIsoDate (s : String) : Option Int :=
  match s.data with
  | [y1, y2, y3, y4, s1, m1, m2, s2, d1, d2] =>
    if s1 = '-' ∧ s2 = '-' then
      match digitVal y1, digitVal y2, digitVal y3, digitVal y4,
          digitVal m1, digitVal m2, digitVal d1, digitVal d2 with
      | some a, some b, some c, some d, some e, some f, some g, some h =>
        let y := 1000 * a + 100 * b + 10 * c + d
        let mo := 10 * e + f
        let da := 10 * g + h
        if 1 ≤ y ∧ 1 ≤ mo ∧ mo ≤ 12 ∧ 1 ≤ da ∧ da ≤ daysInMonth y mo then
          some (daysFromCivil y mo da)
        else none
      | _, _, _, _, _, _, _, _ => none
    else none
  | _ => none

/-- The `business_gap` computation of `coverage_ok` (`scripts/history.py`
lines 356-363): parse the last date, count business days to today, `999`
when parsing fails. -/
def busGap (last : String) (today : Int) : Int :=
  match parseIsoDate last with
  | some d => busday_count d today
  | none => 999

/-- The sort relation `key=lambda x: x["date"]` used by `coverage_ok`
and the fetchers, over any record type with a date. -/
def dateLe {R : Type} (dateOf : R → String) (a b : R) : Prop := sle (dateOf a) (dateOf b)

instance {R : Type} (dateOf : R → String) : DecidableRel (dateLe dateOf) :=
  fun a b => inferInstanceAs (Decidable (sle (dateOf a) (dateOf b)))

/-- Embedding of `coverage_ok` (`scripts/history.py` lines 351-364 and
`scripts/history_ohlc.py` lines 452-465).  The function sorts its
argument in place, so the model returns the list the caller is left
with together with the verdict. -/
def coverage_ok {R : Type} (dateOf : R → String) (data : List R)
    (min_from_date : String) (today : Int) : List R × Bool :=
  match data with
  | [] => ([], false)
  | _ :: _ =>
    let s := data.insertionSort (dateLe dateOf)
    let first := (s.head?.map dateOf).getD ""
    let last := (s.getLast?.map dateOf).getD ""
    (s, decide (200 ≤ s.length) && strLe first min_from_date &&
      decide (busGap last today ≤ 1))

/-!
## Worker fetch and fallback orchestration
-/

/-- The JSON body of a proxy-worker response, as far as the fetcher
inspects it. -/
inductive WorkerBody where
  | notJson : WorkerBody
  | notList : WorkerBody
  | jlist (pts : List CloseRaw) : WorkerBody
deriving DecidableEq

/-- Embedding of the response handling of `fetch_daily_worker`
(`scripts/history.py`, lines 107-133): 404 short-circuits to an empty
series; other non-2xx raise; a non-JSON or non-list payload raises; the
valid points are collected and sorted; an empty result raises. -/
def fetch_daily_worker (status : Nat) (body : WorkerBody) : Except String (List CloseRec) :=
  if status = 404 then .ok []
  else if 400 ≤ status then .error "http status"
  else
    match body with
    | .notJson => .error "worker payload not JSON"
    | .notList => .error "worker payload invalid"
    | .jlist pts =>
      let out := (pts.filterMap
        (fun p => (normClose p).map (fun q => (⟨q.1, q.2⟩ : CloseRec)))).insertionSort
          (dateLe CloseRec.date)
      if out.isEmpty then .error "worker payload empty" else .ok out

/-- The provider chain of `main`: each adapter is tried only while
`fresh` is still empty, and an adapter exception is caught and treated
like no data. -/
def tryAdapters {R : Type} (results : List (Except String (List R))) : List R :=
  results.foldl (fun fresh r =>
    if fresh.isEmpty then
      match r with
      | .ok l => l
      | .error _ => []
    else fresh) []

/-- Embedding of the per-symbol body of `main` (`scripts/history.py`,
lines 435-501): load existing, check coverage (which sorts the list in
place), fall back through the adapters, skip writing only when both the
fresh data and the existing series are empty, otherwise write the merge.
`none` means no write touches the artifact; `some l` means the artifact
is rewritten with `l`.  The existing series of a previously written
artifact is a list of well-formed records. -/
def symbolStep (existing : List CloseRec) (adapters : List (Except String (List CloseRec)))
    (min_from_date : String) (today : Int) : Option (List CloseRec) :=
  let cov := coverage_ok CloseRec.date existing min_from_date today
  if cov.2 then none
  else
    let fresh := tryAdapters adapters
    if fresh.isEmpty && existing.isEmpty then none
    else some (merge_history (cov.1.map closeRecToRaw) (fresh.map closeRecToRaw))

/-- The OHLC sibling of `symbolStep` (`scripts/history_ohlc.py`,
lines 556-652). -/
def symbolStepOhlc (existing : List Candle) (adapters : List (Except String (List Candle)))
    (min_from_date : String) (today : Int) : Option (List Candle) :=
  let cov := coverage_ok Candle.date existing min_from_date today
  if cov.2 then none
  else
    let fresh := tryAdapters adapters
    if fresh.isEmpty && existing.isEmpty then none
    else some (merge_history_ohlc (cov.1.map candleToRaw) (fresh.map candleToRaw))

/-!
## Quote snapshotter
-/

/-- One entry of `quotes.json`: `{last, as_of, interval}`. -/
structure QEntry where
  last : Option ℚ
  as_of : Option String
  interval : Option String
deriving DecidableEq

/-- The outcome of the per-symbol quote lookup `(px, ts, src)`. -/
structure FetchOutcome where
  px : Option ℚ
  ts : Option String
  src : Option String
deriving DecidableEq

/-- One iteration of the symbol loop of `quotes.py main` (lines
383-472): on success store the fresh entry and compare against the
previous one; on failure carry the previous entry forward when it has a
non-null `last`, else leave `out` unchanged. -/
def quotesStep (prev : List (String × QEntry)) (acc : List (String × QEntry) × Bool)
    (item : String × FetchOutcome) : List (String × QEntry) × Bool :=
  match item.2.px with
  | some p =>
    let e : QEntry := ⟨some p, item.2.ts, item.2.src⟩
    (dinsert item.1 e acc.1, acc.2 || decide (dlookup item.1 prev ≠ some e))
  | none =>
    match dlookup item.1 prev with
    | some old =>
      if old.last ≠ none then
        (dinsert item.1 ⟨old.last, old.as_of, old.interval⟩ acc.1, acc.2)
      else acc
    | none => acc

/-- Embedding of the write-back decision of `quotes.py main` (lines
345-491): `out` starts empty, only the symbols of currently-open markets
(`plan`) are visited, and the file is rewritten with `out` only when
something changed; otherwise the previous file is kept when it exists.
The returned mapping is the persisted content after the run (`none`
means the process aborted with no file). -/
def quotes_main (prev : List (String × QEntry)) (plan : List (String × FetchOutcome))
    (hadPrev : Bool) : Option (List (String × QEntry)) :=
  let r := plan.foldl (quotesStep prev) ([], false)
  if r.2 then some r.1 else if hadPrev then some prev else none

/-!
## Candle normalizer: C6 and C9
-/

lemma build_candle_bounds {date o h l c : JVal} {cd : Candle}
    (hcd : build_candle date o h l c = some cd) :
    cd.low_f ≤ cd.open_f ∧ cd.open_f ≤ cd.high_f ∧
      cd.low_f ≤ cd.close_f ∧ cd.close_f ≤ cd.high_f := by
  unfold build_candle at hcd
  cases hds : strVal date with
  | none => simp [hds] at hcd
  | some ds =>
    cases hcf : safe_float c with
    | none => simp [hds, hcf] at hcd
    | some close_f =>
      simp only [hds, hcf] at hcd
      set open_f := (safe_float o).getD close_f with hopen
      set high_f0 := (safe_float h).getD (max open_f close_f) with hh0
      set low_f0 := (safe_float l).getD (min open_f close_f) with hl0
      set high_f := max high_f0 (max open_f close_f) with hhf
      set low_f := min low_f0 (min open_f close_f) with hlf
      have hlow_le : low_f ≤ min open_f close_f := min_le_right _ _
      have hhigh_ge : max open_f close_f ≤ high_f := le_max_right _ _
      have hle : low_f ≤ high_f :=
        le_trans hlow_le (le_trans (min_le_left _ _) (le_trans (le_max_left _ _) hhigh_ge))
      have hnot : ¬ low_f > high_f := not_lt.mpr hle
      rw [if_neg hnot] at hcd
      cases hcd
      exact ⟨le_trans hlow_le (min_le_left _ _), le_trans (le_max_left _ _) hhigh_ge,
        le_trans hlow_le (min_le_right _ _), le_trans (le_max_right _ _) hhigh_ge⟩

lemma build_candle_isSome_iff {s : String} {p : Option ℚ} {o h l c : JVal} :
    (build_candle (.jstr s p) o h l c).isSome = true ↔ (safe_float c).isSome = true := by
  unfold build_candle
  cases hcf : safe_float c with
  | none => simp [strVal, hcf]
  | some close_f =>
    simp only [strVal, hcf, Option.isSome_some, iff_true]
    split <;> simp

/-- C6: whenever `build_candle` produces a candle from raw fields (the
date being a string), the candle satisfies `low ≤ open ≤ high` and
`low ≤ close ≤ high`; and a candle is produced exactly when the close
field parses to a finite number. -/
theorem candle_normalizer_bounds_and_domain (s : String) (p : Option ℚ) (o h l c : JVal) :
    ((build_candle (.jstr s p) o h l c).isSome = true ↔ (safe_float c).isSome = true) ∧
    (∀ cd : Candle, build_candle (.jstr s p) o h l c = some cd →
      cd.low_f ≤ cd.open_f ∧ cd.open_f ≤ cd.high_f ∧
        cd.low_f ≤ cd.close_f ∧ cd.close_f ≤ cd.high_f) :=
  ⟨build_candle_isSome_iff, fun _ hcd => build_candle_bounds hcd⟩

/-- Witness for C6 at a concrete input: only a close value present. -/
theorem candle_normalizer_bounds_and_domain_witness :
    ((build_candle (.jstr "2024-06-01" none) .null .null .null (.num 50)).isSome = true ↔
      (safe_float (.num 50)).isSome = true) ∧
    ((build_candle (.jstr "2024-06-01" none) .null .null .null (.num 50)) =
        some ⟨"2024-06-01", 50, 50, 50, 50⟩ →
      (50 : ℚ) ≤ 50 ∧ (50 : ℚ) ≤ 50 ∧ (50 : ℚ) ≤ 50 ∧ (50 : ℚ) ≤ 50) := by
  have h := candle_normalizer_bounds_and_domain "2024-06-01" none .null .null .null (.num 50)
  exact ⟨h.1, fun hc => h.2 ⟨"2024-06-01", 50, 50, 50, 50⟩ hc⟩

/-- C9: the final swap branch of `build_candle` is unreachable: after
forcing `high = max(high, open, close)` and `low = min(low, open, close)`
the guard `low > high` never holds, for every raw input. -/
theorem candle_swap_branch_unreachable (date o h l c : JVal) :
    swap_branch_reached date o h l c = false := by
  unfold swap_branch_reached
  cases hds : strVal date with
  | none => rfl
  | some ds =>
    cases hcf : safe_float c with
    | none => rfl
    | some close_f =>
      simp only
      set open_f := (safe_float o).getD close_f with hopen
      set high_f0 := (safe_float h).getD (max open_f close_f) with hh0
      set low_f0 := (safe_float l).getD (min open_f close_f) with hl0
      have hle : min low_f0 (min open_f close_f) ≤ max high_f0 (max open_f close_f) :=
        le_trans (min_le_right _ _)
          (le_trans (min_le_left _ _) (le_trans (le_max_left _ _) (le_max_right _ _)))
      simp [not_lt.mpr hle]

/-!
## The string order
-/

lemma lexLe_total : ∀ x y : List Char, lexLe x y = true ∨ lexLe y x = true
  | [], _ => Or.inl rfl
  | _ :: _, [] => Or.inr rfl
  | a :: as, b :: bs => by
    rcases Nat.lt_trichotomy a.toNat b.toNat with h | h | h
    · left; simp [lexLe, h]
    · rcases lexLe_total as bs with ih | ih
      · left; simp [lexLe, h, Nat.lt_irrefl, ih]
      · right; simp [lexLe, h.symm, Nat.lt_irrefl, ih]
    · right; simp [lexLe, h]

lemma char_eq_of_toNat_eq {a b : Char} (h : a.toNat = b.toNat) : a = b :=
  Char.ext (UInt32.ext h)

lemma lexLe_trans : ∀ x y z : List Char,
    lexLe x y = true → lexLe y z = true → lexLe x z = true
  | [], _, _ => fun _ _ => rfl
  | _ :: _, [], _ => fun h _ => by simp [lexLe] at h
  | _ :: _, _ :: _, [] => fun _ h => by simp [lexLe] at h
  | a :: as, b :: bs, c :: cs => by
    intro h1 h2
    rcases Nat.lt_trichotomy a.toNat b.toNat with hab | hab | hab
    · rcases Nat.lt_trichotomy b.toNat c.toNat with hbc | hbc | hbc
      · simp [lexLe, Nat.lt_trans hab hbc]
      · simp [lexLe, hbc ▸ hab]
      · simp [lexLe, hbc, Nat.lt_asymm hbc] at h2
    · rcases Nat.lt_trichotomy b.toNat c.toNat with hbc | hbc | hbc
      · simp [lexLe, hab ▸ hbc]
      · have hac : a.toNat = c.toNat := hab.trans hbc
        simp only [lexLe, hab, Nat.lt_irrefl, if_false, if_neg (Nat.lt_irrefl _)] at h1
        simp only [lexLe, hbc, Nat.lt_irrefl, if_false, if_neg (Nat.lt_irrefl _)] at h2
        simp only [lexLe, hac, Nat.lt_irrefl, if_false, if_neg (Nat.lt_irrefl _)]
        exact lexLe_trans as bs cs h1 h2
      · simp [lexLe, hbc, Nat.lt_asymm hbc] at h2
    · simp [lexLe, hab, Nat.lt_asymm hab] at h1

lemma lexLe_antisymm : ∀ x y : List Char,
    lexLe x y = true → lexLe y x = true → x = y
  | [], [] => fun _ _ => rfl
  | [], _ :: _ => fun _ h => by simp [lexLe] at h
  | _ :: _, [] => fun h _ => by simp [lexLe] at h
  | a :: as, b :: bs => by
    intro h1 h2
    rcases Nat.lt_trichotomy a.toNat b.toNat with hab | hab | hab
    · simp [lexLe, hab, Nat.lt_asymm hab] at h2
    · simp only [lexLe, hab, Nat.lt_irrefl, if_false, if_neg (Nat.lt_irrefl _)] at h1 h2
      rw [char_eq_of_toNat_eq hab, lexLe_antisymm as bs h1 h2]
    · simp [lexLe, hab, Nat.lt_asymm hab] at h1

lemma string_data_inj {s t : String} (h : s.data = t.data) : s = t :=
  congrArg String.mk h

instance : IsTotal String sle := ⟨fun a b => lexLe_total a.data b.data⟩
instance : IsTrans String sle := ⟨fun _ _ _ h1 h2 => lexLe_trans _ _ _ h1 h2⟩
instance : IsAntisymm String sle :=
  ⟨fun _ _ h1 h2 => string_data_inj (lexLe_antisymm _ _ h1 h2)⟩
instance : IsRefl String sle := ⟨fun a => (lexLe_total a.data a.data).elim id id⟩

lemma sle_refl (a : String) : sle a a := IsRefl.refl a

lemma dor_assoc {V : Type} (a b c : Option V) : dor (dor a b) c = dor a (dor b c) := by
  cases a <;> rfl

lemma dor_self_left {V : Type} (a b : Option V) : dor a (dor a b) = dor a b := by
  cases a <;> rfl

lemma dor_isSome {V : Type} (a b : Option V) :
    (dor a b).isSome = (a.isSome || b.isSome) := by
  cases a <;> rfl

lemma dor_none {V : Type} (b : Option V) : dor none b = b := rfl

lemma dor_some {V : Type} (v : V) (b : Option V) : dor (some v) b = some v := rfl

lemma dor_none_right {V : Type} (a : Option V) : dor a none = a := by
  cases a <;> rfl

/-!
## Dictionary lemmas
-/

section Dict

variable {A V : Type}

lemma dlookup_dinsert (d k : String) (v : V) (m : List (String × V)) :
    dlookup k (dinsert d v m) = if k = d then some v else dlookup k m := by
  induction m with
  | nil =>
    simp only [dinsert, dlookup]
    by_cases hk : k = d
    · rw [if_pos hk.symm, if_pos hk]
    · rw [if_neg (fun h => hk h.symm), if_neg hk]
  | cons p t ih =>
    obtain ⟨q, w⟩ := p
    simp only [dinsert]
    by_cases hq : q = d
    · rw [if_pos hq]
      subst hq
      by_cases hk : k = q
      · subst hk
        simp [dlookup]
      · simp only [dlookup]
        rw [if_neg (fun h => hk h.symm), if_neg hk, if_neg (fun h => hk h.symm)]
    · rw [if_neg hq]
      simp only [dlookup, ih]
      by_cases hqk : q = k
      · by_cases hkd : k = d
        · exact absurd (hqk.trans hkd) hq
        · rw [if_pos hqk, if_neg hkd, if_pos hqk]
      · by_cases hkd : k = d
        · rw [if_neg hqk, if_pos hkd, if_pos hkd]
        · rw [if_neg hqk, if_neg hkd, if_neg hkd, if_neg hqk]

lemma mem_mapKeys_iff_dlookup {k : String} {m : List (String × V)} :
    k ∈ mapKeys m ↔ (dlookup k m).isSome = true := by
  induction m with
  | nil => simp [mapKeys, dlookup]
  | cons p t ih =>
    obtain ⟨q, w⟩ := p
    by_cases hq : q = k
    · subst hq; simp [mapKeys, dlookup]
    · simp only [mapKeys, List.map_cons, List.mem_cons, dlookup, if_neg hq]
      simp only [mapKeys] at ih
      rw [ih]
      constructor
      · rintro (h | h)
        · exact absurd h.symm hq
        · exact h
      · exact Or.inr

lemma mem_keys_dinsert {d k : String} {v : V} {m : List (String × V)} :
    k ∈ mapKeys (dinsert d v m) ↔ k = d ∨ k ∈ mapKeys m := by
  rw [mem_mapKeys_iff_dlookup, dlookup_dinsert, mem_mapKeys_iff_dlookup]
  by_cases hk : k = d <;> simp [hk]

lemma nodup_keys_dinsert (d : String) (v : V) :
    ∀ {m : List (String × V)}, (mapKeys m).Nodup → (mapKeys (dinsert d v m)).Nodup := by
  intro m
  induction m with
  | nil => intro _; simp [dinsert, mapKeys]
  | cons p t ih =>
    obtain ⟨q, w⟩ := p
    intro h
    simp only [mapKeys, List.map_cons, List.nodup_cons] at h
    by_cases hq : q = d
    · subst hq
      simpa [dinsert, mapKeys] using h
    · simp only [dinsert, if_neg hq, mapKeys, List.map_cons, List.nodup_cons]
      refine ⟨?_, ih h.2⟩
      intro hmem
      rcases mem_keys_dinsert.mp hmem with h1 | h1
      · exact hq h1
      · exact h.1 h1

lemma mem_dinsert {p : String × V} {d : String} {v : V} :
    ∀ {m : List (String × V)}, p ∈ dinsert d v m → p = (d, v) ∨ p ∈ m := by
  intro m
  induction m with
  | nil =>
    intro h
    simp only [dinsert, List.mem_singleton] at h
    exact Or.inl h
  | cons q t ih =>
    obtain ⟨a, b⟩ := q
    intro h
    by_cases ha : a = d
    · subst ha
      simp only [dinsert, if_pos rfl, eq_self_iff_true, if_true, List.mem_cons] at h
      rcases h with h | h
      · exact Or.inl h
      · exact Or.inr (List.mem_cons_of_mem _ h)
    · simp only [dinsert, if_neg ha, List.mem_cons] at h
      rcases h with h | h
      · exact Or.inr (h ▸ List.mem_cons_self _ _)
      · rcases ih h with h1 | h1
        · exact Or.inl h1
        · exact Or.inr (List.mem_cons_of_mem _ h1)

lemma foldl_lastStep_init (norm : A → Option (String × V)) (k : String) :
    ∀ (xs : List A) (acc : Option V),
      xs.foldl (lastStep norm k) acc = dor (lastNorm norm xs k) acc := by
  intro xs
  induction xs with
  | nil => intro acc; simp [lastNorm, dor_none]
  | cons x t ih =>
    intro acc
    have hcons : lastNorm norm (x :: t) k =
        dor (lastNorm norm t k) (lastStep norm k none x) := by
      simp only [lastNorm, List.foldl_cons]
      exact ih _
    rw [List.foldl_cons, ih, hcons]
    cases hL : lastNorm norm t k with
    | some w => simp only [dor_some]
    | none =>
      rw [dor_none, dor_none]
      cases hx : norm x with
      | none => simp [lastStep, hx, dor_none]
      | some q =>
        obtain ⟨d, v⟩ := q
        by_cases hd : d = k
        · simp [lastStep, hx, hd, dor_some]
        · simp [lastStep, hx, hd, dor_none]

lemma lastNorm_cons (norm : A → Option (String × V)) (k : String) (x : A) (t : List A) :
    lastNorm norm (x :: t) k = dor (lastNorm norm t k) (lastStep norm k none x) := by
  simp only [lastNorm, List.foldl_cons]
  exact foldl_lastStep_init norm k t _

lemma dlookup_insStep (norm : A → Option (String × V)) (k : String)
    (m : List (String × V)) (x : A) :
    dlookup k (insStep norm m x) = dor (lastStep norm k none x) (dlookup k m) := by
  cases hx : norm x with
  | none => simp [insStep, lastStep, hx, dor_none]
  | some q =>
    obtain ⟨d, v⟩ := q
    simp only [insStep, lastStep, hx]
    rw [dlookup_dinsert]
    by_cases hk : k = d
    · rw [if_pos hk, if_pos hk.symm, dor_some]
    · rw [if_neg hk, if_neg (fun h => hk h.symm), dor_none]

lemma dlookup_buildMap (norm : A → Option (String × V)) (k : String) :
    ∀ (xs : List A) (m : List (String × V)),
      dlookup k (buildMap norm xs m) = dor (lastNorm norm xs k) (dlookup k m) := by
  intro xs
  induction xs with
  | nil => intro m; simp [buildMap, lastNorm, dor_none]
  | cons x t ih =>
    intro m
    have h1 : buildMap norm (x :: t) m = buildMap norm t (insStep norm m x) := rfl
    rw [h1, ih, dlookup_insStep, lastNorm_cons, dor_assoc]

lemma nodup_keys_insStep (norm : A → Option (String × V)) {m : List (String × V)} (x : A)
    (h : (mapKeys m).Nodup) : (mapKeys (insStep norm m x)).Nodup := by
  unfold insStep
  cases norm x with
  | none => exact h
  | some q => exact nodup_keys_dinsert _ _ h

lemma nodup_keys_buildMap (norm : A → Option (String × V)) :
    ∀ (xs : List A) {m : List (String × V)},
      (mapKeys m).Nodup → (mapKeys (buildMap norm xs m)).Nodup := by
  intro xs
  induction xs with
  | nil => intro m h; exact h
  | cons x t ih =>
    intro m h
    exact ih (nodup_keys_insStep norm x h)

lemma mem_buildMap (norm : A → Option (String × V)) :
    ∀ (xs : List A) {m : List (String × V)} {p : String × V},
      p ∈ buildMap norm xs m → (∃ x ∈ xs, norm x = some p) ∨ p ∈ m := by
  intro xs
  induction xs with
  | nil => intro m p h; exact Or.inr h
  | cons x t ih =>
    intro m p h
    have h1 : buildMap norm (x :: t) m = buildMap norm t (insStep norm m x) := rfl
    rw [h1] at h
    rcases ih h with h2 | h2
    · obtain ⟨y, hy, hn⟩ := h2
      exact Or.inl ⟨y, List.mem_cons_of_mem _ hy, hn⟩
    · unfold insStep at h2
      cases hx : norm x with
      | none => rw [hx] at h2; exact Or.inr h2
      | some q =>
        rw [hx] at h2
        rcases mem_dinsert h2 with h3 | h3
        · exact Or.inl ⟨x, List.mem_cons_self _ _, h3 ▸ hx⟩
        · exact Or.inr h3

lemma lastStep_none_isSome_iff (norm : A → Option (String × V)) (k : String) (x : A) :
    (lastStep norm k none x).isSome = true ↔ ∃ v, norm x = some (k, v) := by
  unfold lastStep
  cases hx : norm x with
  | none => simp
  | some q =>
    obtain ⟨d, v⟩ := q
    by_cases hd : d = k
    · subst hd; simp
    · simp [hd]

lemma lastNorm_isSome_iff (norm : A → Option (String × V)) (k : String) :
    ∀ xs : List A,
      (lastNorm norm xs k).isSome = true ↔ ∃ x ∈ xs, ∃ v, norm x = some (k, v) := by
  intro xs
  induction xs with
  | nil => simp [lastNorm]
  | cons x t ih =>
    rw [lastNorm_cons, dor_isSome]
    simp only [Bool.or_eq_true, ih, lastStep_none_isSome_iff, List.mem_cons]
    constructor
    · rintro (⟨y, hy, hv⟩ | hv)
      · exact ⟨y, Or.inr hy, hv⟩
      · exact ⟨x, Or.inl rfl, hv⟩
    · rintro ⟨y, (rfl | hy), hv⟩
      · exact Or.inr hv
      · exact Or.inl ⟨y, hy, hv⟩

lemma mem_of_dlookup_eq_some {k : String} {v : V} :
    ∀ {l : List (String × V)}, dlookup k l = some v → (k, v) ∈ l := by
  intro l
  induction l with
  | nil => intro h; simp [dlookup] at h
  | cons p t ih =>
    obtain ⟨q, w⟩ := p
    intro h
    by_cases hq : q = k
    · subst hq
      rw [dlookup, if_pos rfl] at h
      cases h
      exact List.mem_cons_self _ _
    · rw [dlookup, if_neg hq] at h
      exact List.mem_cons_of_mem _ (ih h)

lemma dlookup_eq_some_of_mem {k : String} {v : V} :
    ∀ {l : List (String × V)}, (mapKeys l).Nodup → (k, v) ∈ l → dlookup k l = some v := by
  intro l
  induction l with
  | nil => intro _ h; simp at h
  | cons p t ih =>
    obtain ⟨q, w⟩ := p
    intro hnd h
    simp only [mapKeys, List.map_cons, List.nodup_cons] at hnd
    rcases List.mem_cons.mp h with h1 | h1
    · cases h1
      rw [dlookup, if_pos rfl]
    · have hq : q ≠ k := by
        intro rfl_q
        exact hnd.1 (by
          subst rfl_q
          exact List.mem_map_of_mem Prod.fst h1)
      rw [dlookup, if_neg hq]
      exact ih hnd.2 h1

lemma dlookup_perm {l₁ l₂ : List (String × V)} (h : List.Perm l₁ l₂)
    (h₁ : (mapKeys l₁).Nodup) (k : String) : dlookup k l₁ = dlookup k l₂ := by
  have h₂ : (mapKeys l₂).Nodup := ((h.map Prod.fst).nodup_iff).mp h₁
  cases ho : dlookup k l₁ with
  | some v =>
    exact (dlookup_eq_some_of_mem h₂ (h.mem_iff.mp (mem_of_dlookup_eq_some ho))).symm
  | none =>
    cases ho2 : dlookup k l₂ with
    | none => rfl
    | some v =>
      have : (k, v) ∈ l₁ := h.mem_iff.mpr (mem_of_dlookup_eq_some ho2)
      rw [dlookup_eq_some_of_mem h₁ this] at ho
      cases ho

end Dict

/-!
## Sorted-output and merge lemmas
-/

section SortedOut

variable {A V : Type}

lemma keys_filterMap_lookup (m : List (String × V)) :
    ∀ (L : List String), (∀ d ∈ L, (dlookup d m).isSome = true) →
      mapKeys (L.filterMap (fun d => (dlookup d m).map (fun v => (d, v)))) = L := by
  intro L
  induction L with
  | nil => intro _; rfl
  | cons d L ih =>
    intro h
    obtain ⟨v, hv⟩ := Option.isSome_iff_exists.mp (h d (List.mem_cons_self _ _))
    have ht := ih (fun x hx => h x (List.mem_cons_of_mem _ hx))
    simp only [mapKeys] at ht
    simp only [List.filterMap_cons, hv, Option.map_some', mapKeys, List.map_cons, ht]

lemma keys_sortedRecords (m : List (String × V)) :
    mapKeys (sortedRecords m) = (mapKeys m).insertionSort sle := by
  apply keys_filterMap_lookup
  intro d hd
  exact mem_mapKeys_iff_dlookup.mp ((List.perm_insertionSort sle (mapKeys m)).mem_iff.mp hd)

lemma sorted_keys_sortedRecords (m : List (String × V)) :
    (mapKeys (sortedRecords m)).Pairwise sle := by
  rw [keys_sortedRecords]
  exact List.sorted_insertionSort sle _

lemma nodup_keys_sortedRecords (m : List (String × V)) (h : (mapKeys m).Nodup) :
    (mapKeys (sortedRecords m)).Nodup := by
  rw [keys_sortedRecords]
  exact ((List.perm_insertionSort sle (mapKeys m)).nodup_iff).mpr h

lemma mem_sortedRecords_iff {m : List (String × V)} {d : String} {v : V} :
    (d, v) ∈ sortedRecords m ↔ dlookup d m = some v := by
  unfold sortedRecords
  rw [List.mem_filterMap]
  constructor
  · rintro ⟨a, _, hfa⟩
    cases hla : dlookup a m with
    | none => rw [hla] at hfa; cases hfa
    | some w =>
      rw [hla, Option.map_some'] at hfa
      obtain ⟨h1, h2⟩ := Prod.mk.injEq .. ▸ Option.some.injEq .. ▸ hfa
      exact h1 ▸ h2 ▸ hla
  · intro h
    refine ⟨d, ?_, by rw [h]; rfl⟩
    exact (List.perm_insertionSort sle _).mem_iff.mpr
      (mem_mapKeys_iff_dlookup.mpr (by simp [h]))

lemma dlookup_sortedRecords {m : List (String × V)} (h : (mapKeys m).Nodup) (k : String) :
    dlookup k (sortedRecords m) = dlookup k m := by
  cases ho : dlookup k m with
  | some v =>
    exact dlookup_eq_some_of_mem (nodup_keys_sortedRecords m h) (mem_sortedRecords_iff.mpr ho)
  | none =>
    cases ho2 : dlookup k (sortedRecords m) with
    | none => rfl
    | some v =>
      have hm := mem_sortedRecords_iff.mp (mem_of_dlookup_eq_some ho2)
      rw [ho] at hm
      cases hm

lemma sortedRecords_ext {m₁ m₂ : List (String × V)} (h₁ : (mapKeys m₁).Nodup)
    (h₂ : (mapKeys m₂).Nodup) (h : ∀ k, dlookup k m₁ = dlookup k m₂) :
    sortedRecords m₁ = sortedRecords m₂ := by
  have hkeys : (mapKeys m₁).insertionSort sle = (mapKeys m₂).insertionSort sle := by
    have hperm : List.Perm ((mapKeys m₁).insertionSort sle) ((mapKeys m₂).insertionSort sle) := by
      refine ((List.perm_insertionSort sle _).trans ?_).trans
        (List.perm_insertionSort sle _).symm
      rw [List.perm_ext_iff_of_nodup h₁ h₂]
      intro a
      rw [mem_mapKeys_iff_dlookup, mem_mapKeys_iff_dlookup, h a]
    exact List.eq_of_perm_of_sorted hperm
      (List.sorted_insertionSort sle _) (List.sorted_insertionSort sle _)
  unfold sortedRecords
  rw [hkeys]
  exact List.filterMap_congr (fun a _ => by rw [h a])

lemma nodup_keys_mergeMap (norm : A → Option (String × V)) (old new : List A) :
    (mapKeys (buildMap norm new (buildMap norm old []))).Nodup :=
  nodup_keys_buildMap norm new (nodup_keys_buildMap norm old (by simp [mapKeys]))

lemma dlookup_mergeMap (norm : A → Option (String × V)) (old new : List A) (k : String) :
    dlookup k (buildMap norm new (buildMap norm old [])) =
      dor (lastNorm norm new k) (lastNorm norm old k) := by
  rw [dlookup_buildMap, dlookup_buildMap]
  show dor _ (dor _ (dlookup k [])) = _
  rw [show dlookup k ([] : List (String × V)) = none from rfl, dor_none_right]

lemma dlookup_mergeGen (norm : A → Option (String × V)) (old new : List A) (k : String) :
    dlookup k (mergeGen norm old new) = dor (lastNorm norm new k) (lastNorm norm old k) := by
  unfold mergeGen
  rw [dlookup_sortedRecords (nodup_keys_mergeMap norm old new), dlookup_mergeMap]

lemma mem_mergeGen_pairs {norm : A → Option (String × V)} {old new : List A}
    {p : String × V} (h : p ∈ mergeGen norm old new) :
    ∃ x, (x ∈ old ∨ x ∈ new) ∧ norm x = some p := by
  obtain ⟨d, v⟩ := p
  have hl : dlookup d (buildMap norm new (buildMap norm old [])) = some v :=
    mem_sortedRecords_iff.mp h
  have hm := mem_of_dlookup_eq_some hl
  rcases mem_buildMap norm new hm with h1 | h1
  · obtain ⟨x, hx, hnx⟩ := h1
    exact ⟨x, Or.inr hx, hnx⟩
  · rcases mem_buildMap norm old h1 with h2 | h2
    · obtain ⟨x, hx, hnx⟩ := h2
      exact ⟨x, Or.inl hx, hnx⟩
    · cases h2

lemma mem_keys_mergeGen {norm : A → Option (String × V)} {old new : List A} {k : String} :
    k ∈ mapKeys (mergeGen norm old new) ↔
      (∃ x ∈ old, ∃ v, norm x = some (k, v)) ∨ (∃ x ∈ new, ∃ v, norm x = some (k, v)) := by
  rw [mem_mapKeys_iff_dlookup, dlookup_mergeGen, dor_isSome, Bool.or_eq_true,
    lastNorm_isSome_iff, lastNorm_isSome_iff]
  exact or_comm

lemma nodup_keys_mergeGen (norm : A → Option (String × V)) (old new : List A) :
    (mapKeys (mergeGen norm old new)).Nodup :=
  nodup_keys_sortedRecords _ (nodup_keys_mergeMap norm old new)

lemma keys_mergeGen_pairwise_slt (norm : A → Option (String × V)) (old new : List A) :
    (mapKeys (mergeGen norm old new)).Pairwise slt := by
  have hs : (mapKeys (mergeGen norm old new)).Pairwise sle := sorted_keys_sortedRecords _
  have hn : (mapKeys (mergeGen norm old new)).Pairwise (· ≠ ·) :=
    nodup_keys_mergeGen norm old new
  exact (hs.and hn).imp (fun h => ⟨h.1, h.2⟩)

lemma lastNorm_map_toRaw (norm : A → Option (String × V)) (toRaw : String × V → A)
    (k : String) :
    ∀ (l : List (String × V)), (∀ p ∈ l, norm (toRaw p) = some p) →
      (mapKeys l).Nodup → lastNorm norm (l.map toRaw) k = dlookup k l := by
  intro l
  induction l with
  | nil => intro _ _; rfl
  | cons p l ih =>
    obtain ⟨d, v⟩ := p
    intro hall hnd
    simp only [mapKeys, List.map_cons, List.nodup_cons] at hnd
    have hhd : norm (toRaw (d, v)) = some (d, v) := hall _ (List.mem_cons_self _ _)
    have hih := ih (fun q hq => hall q (List.mem_cons_of_mem _ hq)) hnd.2
    rw [List.map_cons, lastNorm_cons, hih]
    simp only [lastStep, hhd]
    by_cases hd : d = k
    · subst hd
      rw [if_pos rfl]
      have hnone : dlookup d l = none := by
        cases hdl : dlookup d l with
        | none => rfl
        | some w =>
          exact absurd (List.mem_map_of_mem Prod.fst (mem_of_dlookup_eq_some hdl)) hnd.1
      rw [hnone]
      show dor none (some v) = if d = d then some v else dlookup d l
      rw [dor_none, if_pos rfl]
    · rw [if_neg hd, dor_none_right]
      show dlookup k l = if d = k then some v else dlookup k l
      rw [if_neg hd]

lemma mergeGen_idem (norm : A → Option (String × V)) (toRaw : String × V → A)
    (Hrt : ∀ x d v, norm x = some (d, v) → norm (toRaw (d, v)) = some (d, v))
    (old new : List A) :
    mergeGen norm ((mergeGen norm old new).map toRaw) new = mergeGen norm old new := by
  have hall : ∀ p ∈ mergeGen norm old new, norm (toRaw p) = some p := by
    intro p hp
    obtain ⟨x, _, hx⟩ := mem_mergeGen_pairs hp
    obtain ⟨d, v⟩ := p
    exact Hrt x d v hx
  have hndR : (mapKeys (mergeGen norm old new)).Nodup := nodup_keys_mergeGen norm old new
  show sortedRecords (buildMap norm new
      (buildMap norm ((mergeGen norm old new).map toRaw) [])) =
    sortedRecords (buildMap norm new (buildMap norm old []))
  apply sortedRecords_ext (nodup_keys_mergeMap _ _ _) (nodup_keys_mergeMap _ _ _)
  intro k
  rw [dlookup_mergeMap, dlookup_mergeMap,
    lastNorm_map_toRaw norm toRaw k _ hall hndR]
  have hR : dlookup k (mergeGen norm old new) =
      dor (lastNorm norm new k) (lastNorm norm old k) := dlookup_mergeGen norm old new k
  rw [hR, dor_self_left]

end SortedOut

/-!
## Renormalization roundtrips and merge idempotence (C5)
-/

lemma pyFloat_idem {c : JVal} (h : isNumber c = true) :
    isNumber (pyFloat c) = true ∧ pyFloat (pyFloat c) = pyFloat c := by
  cases c <;> simp_all [isNumber, pyFloat]

lemma normClose_roundtrip {x : CloseRaw} {d : String} {v : JVal}
    (h : normClose x = some (d, v)) :
    normClose (closeRecToRaw ⟨d, v⟩) = some (d, v) := by
  unfold normClose at h
  cases hds : strVal x.date with
  | none => rw [hds] at h; cases h
  | some ds =>
    simp only [hds] at h
    by_cases hn : isNumber x.close
    · rw [if_pos hn] at h
      simp only [Option.some.injEq, Prod.mk.injEq] at h
      obtain ⟨hd, hv⟩ := h
      subst hd
      subst hv
      simp only [normClose, closeRecToRaw, strVal]
      rw [if_pos (pyFloat_idem hn).1, (pyFloat_idem hn).2]
    · rw [if_neg hn] at h
      cases h

lemma build_candle_renorm {cd : Candle} {date o hh ll c : JVal}
    (h : build_candle date o hh ll c = some cd) :
    build_candle (.jstr cd.date none) (.num cd.open_f) (.num cd.high_f) (.num cd.low_f)
      (.num cd.close_f) = some cd := by
  obtain ⟨h1, h2, h3, h4⟩ := build_candle_bounds h
  have hmax : max cd.high_f (max cd.open_f cd.close_f) = cd.high_f :=
    max_eq_left (max_le h2 h4)
  have hmin : min cd.low_f (min cd.open_f cd.close_f) = cd.low_f :=
    min_eq_left (le_min h1 h3)
  simp only [build_candle, strVal, safe_float, Option.getD_some]
  rw [hmax, hmin, if_neg (not_lt.mpr (le_trans h1 h2))]

lemma normOhlc_parts {x : OhlcRaw} {d : String} {cd : Candle}
    (h : normOhlc x = some (d, cd)) :
    d = cd.date ∧ normalizeOhlc x = some cd := by
  unfold normOhlc at h
  cases hn : normalizeOhlc x with
  | none => rw [hn] at h; cases h
  | some cd2 =>
    rw [hn, Option.map_some'] at h
    simp only [Option.some.injEq, Prod.mk.injEq] at h
    obtain ⟨hd, hcd⟩ := h
    subst hcd
    exact ⟨hd.symm, rfl⟩

lemma normOhlc_roundtrip {x : OhlcRaw} {d : String} {cd : Candle}
    (h : normOhlc x = some (d, cd)) :
    normOhlc (candleToRaw cd) = some (d, cd) := by
  obtain ⟨hd, hn⟩ := normOhlc_parts h
  subst hd
  have hb : build_candle x.date x.rawOpen x.rawHigh x.rawLow x.rawClose = some cd := hn
  have hr := build_candle_renorm hb
  unfold normOhlc normalizeOhlc candleToRaw
  simp only
  rw [hr, Option.map_some']

/-- C5: merge is idempotent in its second argument for both the
close-only and the OHLC merge: re-merging the merged output with the
same fresh series reproduces the merged output exactly. -/
theorem merge_idempotent_second_arg (A B : List CloseRaw) (Ao Bo : List OhlcRaw) :
    merge_history ((merge_history A B).map closeRecToRaw) B = merge_history A B ∧
    merge_history_ohlc ((merge_history_ohlc Ao Bo).map candleToRaw) Bo =
      merge_history_ohlc Ao Bo := by
  constructor
  · show (mergeGen normClose (((mergeGen normClose A B).map
        (fun p => (⟨p.1, p.2⟩ : CloseRec))).map closeRecToRaw) B).map
        (fun p => (⟨p.1, p.2⟩ : CloseRec)) = _
    rw [List.map_map]
    exact congrArg _
      (mergeGen_idem normClose _ (fun x d v h => normClose_roundtrip h) A B)
  · show (mergeGen normOhlc (((mergeGen normOhlc Ao Bo).map Prod.snd).map candleToRaw)
        Bo).map Prod.snd = _
    rw [List.map_map]
    exact congrArg _
      (mergeGen_idem normOhlc _ (fun x d v h => normOhlc_roundtrip h) Ao Bo)

/-!
## Merge-by-date semantics (C1)
-/

lemma closeLookup_map_pairs (d : String) :
    ∀ ps : List (String × JVal),
      closeLookup d (ps.map (fun p => (⟨p.1, p.2⟩ : CloseRec))) = dlookup d ps := by
  intro ps
  induction ps with
  | nil => rfl
  | cons p t ih =>
    obtain ⟨k, v⟩ := p
    by_cases hk : k = d
    · subst hk
      simp only [List.map_cons, closeLookup]
      rw [List.find?_cons_of_pos _ (by simp), Option.map_some']
      rw [dlookup, if_pos rfl]
    · simp only [List.map_cons, closeLookup]
      rw [List.find?_cons_of_neg _ (by simp [hk])]
      rw [dlookup, if_neg hk]
      exact ih

lemma candleLookup_map_pairs (d : String) :
    ∀ ps : List (String × Candle), (∀ p ∈ ps, (p.2).date = p.1) →
      candleLookup d (ps.map Prod.snd) = dlookup d ps := by
  intro ps
  induction ps with
  | nil => intro _; rfl
  | cons p t ih =>
    obtain ⟨k, cd⟩ := p
    intro hinv
    have hk : cd.date = k := hinv (k, cd) (List.mem_cons_self _ _)
    have ht := ih (fun q hq => hinv q (List.mem_cons_of_mem _ hq))
    by_cases hkd : k = d
    · subst hkd
      simp only [List.map_cons, candleLookup]
      rw [List.find?_cons_of_pos _ (by simp [hk])]
      rw [dlookup, if_pos rfl]
    · simp only [List.map_cons, candleLookup]
      rw [List.find?_cons_of_neg _ (by simp [hk, hkd])]
      rw [dlookup, if_neg hkd]
      exact ht

lemma mergeGen_ohlc_key_inv {old new : List OhlcRaw} :
    ∀ p ∈ mergeGen normOhlc old new, (p.2).date = p.1 := by
  intro p hp
  obtain ⟨x, _, hx⟩ := mem_mergeGen_pairs hp
  obtain ⟨d, cd⟩ := p
  exact (normOhlc_parts hx).1.symm

/-- C1: both merges key records by date, inserting `old` then `new`, so
the fresh record wins on any shared date; the result has exactly one
record per unique valid input date, in strictly ascending date order. -/
theorem merge_by_date_semantics (old new : List CloseRaw) (oldO newO : List OhlcRaw) :
    (((merge_history old new).map CloseRec.date).Pairwise slt ∧
      (∀ d : String, d ∈ (merge_history old new).map CloseRec.date ↔
        ((∃ x ∈ old, ∃ v, normClose x = some (d, v)) ∨
          (∃ x ∈ new, ∃ v, normClose x = some (d, v)))) ∧
      (∀ d v, (∃ x ∈ old, ∃ w, normClose x = some (d, w)) →
        lastNorm normClose new d = some v →
        closeLookup d (merge_history old new) = some v)) ∧
    (((merge_history_ohlc oldO newO).map Candle.date).Pairwise slt ∧
      (∀ d : String, d ∈ (merge_history_ohlc oldO newO).map Candle.date ↔
        ((∃ x ∈ oldO, ∃ cd, normOhlc x = some (d, cd)) ∨
          (∃ x ∈ newO, ∃ cd, normOhlc x = some (d, cd)))) ∧
      (∀ d cd, (∃ x ∈ oldO, ∃ cd2, normOhlc x = some (d, cd2)) →
        lastNorm normOhlc newO d = some cd →
        candleLookup d (merge_history_ohlc oldO newO) = some cd)) := by
  have hdates : (merge_history old new).map CloseRec.date =
      mapKeys (mergeGen normClose old new) := by
    unfold merge_history mapKeys
    rw [List.map_map]
    exact List.map_congr_left (fun p _ => rfl)
  have hdatesO : (merge_history_ohlc oldO newO).map Candle.date =
      mapKeys (mergeGen normOhlc oldO newO) := by
    unfold merge_history_ohlc mapKeys
    rw [List.map_map]
    exact List.map_congr_left (fun p hp => mergeGen_ohlc_key_inv p hp)
  refine ⟨⟨?_, ?_, ?_⟩, ?_, ?_, ?_⟩
  · rw [hdates]
    exact keys_mergeGen_pairwise_slt normClose old new
  · intro d
    rw [hdates]
    exact mem_keys_mergeGen
  · intro d v _ hnew
    have hb : closeLookup d (merge_history old new) =
        dlookup d (mergeGen normClose old new) := closeLookup_map_pairs d _
    rw [hb, dlookup_mergeGen, hnew, dor_some]
  · rw [hdatesO]
    exact keys_mergeGen_pairwise_slt normOhlc oldO newO
  · intro d
    rw [hdatesO]
    exact mem_keys_mergeGen
  · intro d cd _ hnew
    have hb : candleLookup d (merge_history_ohlc oldO newO) =
        dlookup d (mergeGen normOhlc oldO newO) :=
      candleLookup_map_pairs d _ (fun p hp => mergeGen_ohlc_key_inv p hp)
    rw [hb, dlookup_mergeGen, hnew, dor_some]

/-- Witness for C1 at the spec's own scenario: the fresh record for
2023-01-03 (close 101) wins over the stale one (close 100), in both
variants. -/
theorem merge_by_date_semantics_witness :
    closeLookup "2023-01-03" (merge_history [⟨.jstr "2023-01-03" none, .num 100⟩]
        [⟨.jstr "2023-01-03" none, .num 101⟩, ⟨.jstr "2023-01-04" none, .num 102⟩]) =
      some (.num 101) ∧
    candleLookup "2024-06-01" (merge_history_ohlc
        [⟨.jstr "2024-06-01" none, .null, .null, .null, .num 49⟩]
        [⟨.jstr "2024-06-01" none, .null, .null, .null, .num 50⟩]) =
      some ⟨"2024-06-01", 50, 50, 50, 50⟩ := by
  have h := merge_by_date_semantics [⟨.jstr "2023-01-03" none, .num 100⟩]
    [⟨.jstr "2023-01-03" none, .num 101⟩, ⟨.jstr "2023-01-04" none, .num 102⟩]
    [⟨.jstr "2024-06-01" none, .null, .null, .null, .num 49⟩]
    [⟨.jstr "2024-06-01" none, .null, .null, .null, .num 50⟩]
  constructor
  · exact h.1.2.2 "2023-01-03" (.num 101)
      ⟨⟨.jstr "2023-01-03" none, .num 100⟩, by simp, ⟨.num 100, rfl⟩⟩ rfl
  · exact h.2.2.2 "2024-06-01" ⟨"2024-06-01", 50, 50, 50, 50⟩
      ⟨⟨.jstr "2024-06-01" none, .null, .null, .null, .num 49⟩, by simp,
        ⟨⟨"2024-06-01", 49, 49, 49, 49⟩, rfl⟩⟩ rfl

/-!
## Merge with the empty series is sort-dedup (C4)
-/

instance {V : Type} : IsTotal (String × V) pairLe :=
  ⟨fun p q => lexLe_total p.1.data q.1.data⟩

instance {V : Type} : IsTrans (String × V) pairLe :=
  ⟨fun _ _ _ h1 h2 => lexLe_trans _ _ _ h1 h2⟩

section DedupLemmas

variable {A V : Type}

lemma pairs_eq_keys_filterMap :
    ∀ {l : List (String × V)}, (mapKeys l).Nodup →
      l = (mapKeys l).filterMap (fun d => (dlookup d l).map (fun v => (d, v))) := by
  intro l
  induction l with
  | nil => intro _; rfl
  | cons p t ih =>
    obtain ⟨d, v⟩ := p
    intro h
    simp only [mapKeys, List.map_cons, List.nodup_cons] at h
    show (d, v) :: t = List.filterMap
      (fun a => (dlookup a ((d, v) :: t)).map (fun w => (a, w))) (d :: t.map Prod.fst)
    have hfd : (dlookup d ((d, v) :: t)).map (fun w => (d, w)) = some (d, v) := by
      have hl : dlookup d ((d, v) :: t) = some v := by simp [dlookup]
      rw [hl, Option.map_some']
    simp only [List.filterMap_cons, hfd]
    have htail : List.filterMap
        (fun a => (dlookup a ((d, v) :: t)).map (fun w => (a, w))) (t.map Prod.fst) =
        List.filterMap (fun a => (dlookup a t).map (fun w => (a, w))) (t.map Prod.fst) := by
      apply List.filterMap_congr
      intro a ha
      have hda : ¬ d = a := fun hh => h.1 (hh ▸ ha)
      have hl : dlookup a ((d, v) :: t) = dlookup a t := by simp [dlookup, hda]
      rw [hl]
    rw [htail]
    have ht := ih h.2
    simp only [mapKeys] at ht
    rw [← ht]

lemma pairs_eq_of_sorted_nodup_lookup {l₁ l₂ : List (String × V)}
    (s₁ : (mapKeys l₁).Pairwise sle) (s₂ : (mapKeys l₂).Pairwise sle)
    (n₁ : (mapKeys l₁).Nodup) (n₂ : (mapKeys l₂).Nodup)
    (h : ∀ k, dlookup k l₁ = dlookup k l₂) : l₁ = l₂ := by
  have hperm : List.Perm (mapKeys l₁) (mapKeys l₂) := by
    rw [List.perm_ext_iff_of_nodup n₁ n₂]
    intro a
    rw [mem_mapKeys_iff_dlookup, mem_mapKeys_iff_dlookup, h a]
  have hkeys : mapKeys l₁ = mapKeys l₂ := List.eq_of_perm_of_sorted hperm s₁ s₂
  calc l₁ = (mapKeys l₁).filterMap (fun d => (dlookup d l₁).map (fun v => (d, v))) :=
        pairs_eq_keys_filterMap n₁
    _ = (mapKeys l₂).filterMap (fun d => (dlookup d l₁).map (fun v => (d, v))) := by
        rw [hkeys]
    _ = (mapKeys l₂).filterMap (fun d => (dlookup d l₂).map (fun v => (d, v))) :=
        List.filterMap_congr (fun a _ => by rw [h a])
    _ = l₂ := (pairs_eq_keys_filterMap n₂).symm

lemma mem_keys_keepLast {k : String} :
    ∀ {X : List (String × V)}, k ∈ mapKeys (keepLast X) ↔ k ∈ mapKeys X := by
  intro X
  induction X with
  | nil => simp [keepLast]
  | cons p t ih =>
    obtain ⟨d, v⟩ := p
    by_cases hd : d ∈ t.map Prod.fst
    · simp only [keepLast, if_pos hd, mapKeys, List.map_cons, List.mem_cons]
      simp only [mapKeys] at ih
      rw [ih]
      constructor
      · exact Or.inr
      · rintro (rfl | hk)
        · exact hd
        · exact hk
    · simp only [keepLast, if_neg hd, mapKeys, List.map_cons, List.mem_cons]
      simp only [mapKeys] at ih
      rw [ih]

lemma nodup_keys_keepLast : ∀ (X : List (String × V)), (mapKeys (keepLast X)).Nodup := by
  intro X
  induction X with
  | nil => simp [keepLast, mapKeys]
  | cons p t ih =>
    obtain ⟨d, v⟩ := p
    by_cases hd : d ∈ t.map Prod.fst
    · simpa [keepLast, hd] using ih
    · simp only [keepLast, if_neg hd, mapKeys, List.map_cons, List.nodup_cons]
      refine ⟨fun hmem => hd ?_, ih⟩
      have := mem_keys_keepLast.mp hmem
      simpa [mapKeys] using this

lemma lastNorm_id_isSome_iff (X : List (String × V)) (k : String) :
    (lastNorm (fun p => some p) X k).isSome = true ↔ k ∈ mapKeys X := by
  rw [lastNorm_isSome_iff]
  constructor
  · rintro ⟨⟨a, b⟩, hab, v, hv⟩
    simp only [Option.some.injEq, Prod.mk.injEq] at hv
    obtain ⟨ha, _⟩ := hv
    exact ha ▸ List.mem_map_of_mem Prod.fst hab
  · intro hk
    obtain ⟨p, hp, hfst⟩ := List.mem_map.mp hk
    exact ⟨p, hp, p.2, by rw [← hfst]⟩

lemma dlookup_keepLast (k : String) :
    ∀ (X : List (String × V)), dlookup k (keepLast X) = lastNorm (fun p => some p) X k := by
  intro X
  induction X with
  | nil => rfl
  | cons p t ih =>
    obtain ⟨d, v⟩ := p
    have hcons : lastNorm (fun p : String × V => some p) ((d, v) :: t) k =
        dor (lastNorm (fun p => some p) t k) (if d = k then some v else none) := by
      rw [lastNorm_cons]
      rfl
    rw [hcons]
    by_cases hd : d ∈ t.map Prod.fst
    · simp only [keepLast, if_pos hd]
      rw [ih]
      by_cases hdk : d = k
      · subst hdk
        obtain ⟨w, hw⟩ := Option.isSome_iff_exists.mp
          ((lastNorm_id_isSome_iff t d).mpr (by simpa [mapKeys] using hd))
        rw [hw, if_pos rfl, dor_some]
      · rw [if_neg hdk, dor_none_right]
    · simp only [keepLast, if_neg hd]
      show (if d = k then some v else dlookup k (keepLast t)) = _
      by_cases hdk : d = k
      · subst hdk
        rw [if_pos rfl, if_pos rfl]
        have hnone : lastNorm (fun p : String × V => some p) t d = none := by
          cases hl : lastNorm (fun p : String × V => some p) t d with
          | none => rfl
          | some w =>
            exact absurd (by simpa [mapKeys] using
              (lastNorm_id_isSome_iff t d).mp (by rw [hl]; rfl)) hd
        rw [hnone, dor_none]
      · rw [if_neg hdk, if_neg hdk, dor_none_right, ih]

lemma lastNorm_filterMap (norm : A → Option (String × V)) (k : String) :
    ∀ S : List A, lastNorm (fun p => some p) (S.filterMap norm) k = lastNorm norm S k := by
  intro S
  induction S with
  | nil => rfl
  | cons x t ih =>
    cases hx : norm x with
    | none =>
      rw [List.filterMap_cons_none hx, ih, lastNorm_cons]
      have : lastStep norm k none x = none := by simp [lastStep, hx]
      rw [this, dor_none_right]
    | some p =>
      rw [List.filterMap_cons_some hx, lastNorm_cons, lastNorm_cons, ih]
      obtain ⟨d, v⟩ := p
      have h1 : lastStep (fun p : String × V => some p) k none (d, v) =
          if d = k then some v else none := rfl
      have h2 : lastStep norm k none x = if d = k then some v else none := by
        simp [lastStep, hx]
      rw [h1, h2]

lemma mergeGen_nil_eq_sort_keepLast (norm : A → Option (String × V)) (S : List A) :
    mergeGen norm S [] = (keepLast (S.filterMap norm)).insertionSort pairLe := by
  have hpermKeys : List.Perm (mapKeys ((keepLast (S.filterMap norm)).insertionSort pairLe))
      (mapKeys (keepLast (S.filterMap norm))) :=
    (List.perm_insertionSort pairLe _).map Prod.fst
  have hnodupSort : (mapKeys ((keepLast (S.filterMap norm)).insertionSort pairLe)).Nodup :=
    (hpermKeys.nodup_iff).mpr (nodup_keys_keepLast _)
  apply pairs_eq_of_sorted_nodup_lookup
  · exact sorted_keys_sortedRecords _
  · exact List.pairwise_map.mpr (List.sorted_insertionSort pairLe _)
  · exact nodup_keys_mergeGen norm S []
  · exact hnodupSort
  · intro k
    have h1 : dlookup k (mergeGen norm S []) = lastNorm norm S k := by
      rw [dlookup_mergeGen]
      show dor (lastNorm norm [] k) _ = _
      rw [show lastNorm norm [] k = none from rfl, dor_none]
    have h2 : dlookup k ((keepLast (S.filterMap norm)).insertionSort pairLe) =
        lastNorm norm S k := by
      rw [dlookup_perm (List.perm_insertionSort pairLe _) hnodupSort k,
        dlookup_keepLast, lastNorm_filterMap]
    rw [h1, h2]

end DedupLemmas

/-- C4: merging a series with the empty series yields exactly the
sort-and-dedup-by-date of the series, in both variants. -/
theorem merge_nil_is_sort_dedup (S : List CloseRaw) (So : List OhlcRaw) :
    merge_history S [] = sort_dedup S ∧ merge_history_ohlc So [] = sort_dedup_ohlc So :=
  ⟨congrArg _ (mergeGen_nil_eq_sort_keepLast normClose S),
    congrArg _ (mergeGen_nil_eq_sort_keepLast normOhlc So)⟩

/-!
## The coverage checker (C2, C10)
-/

instance {R : Type} (dateOf : R → String) : IsTotal R (dateLe dateOf) :=
  ⟨fun a b => lexLe_total (dateOf a).data (dateOf b).data⟩

instance {R : Type} (dateOf : R → String) : IsTrans R (dateLe dateOf) :=
  ⟨fun _ _ _ h1 h2 => lexLe_trans _ _ _ h1 h2⟩

lemma pairwise_head_le {R : Type} (dateOf : R → String) {l : List R} {a x : R}
    (h : (a :: l).Pairwise (dateLe dateOf)) (hx : x ∈ a :: l) :
    sle (dateOf a) (dateOf x) := by
  rcases List.mem_cons.mp hx with rfl | hx2
  · exact sle_refl _
  · exact (List.pairwise_cons.mp h).1 x hx2

lemma pairwise_getLast_ge {R : Type} (dateOf : R → String) :
    ∀ (l : List R) (b : R), l.Pairwise (dateLe dateOf) → l.getLast? = some b →
      ∀ x ∈ l, sle (dateOf x) (dateOf b) := by
  intro l
  induction l with
  | nil => intro b _ hb; cases hb
  | cons a t ih =>
    intro b hp hb x hx
    cases t with
    | nil =>
      have hba : b = a := by
        have : some a = some b := by simpa using hb
        exact (Option.some.injEq .. ▸ this).symm
      subst hba
      have hxa : x = b := by simpa using hx
      subst hxa
      exact sle_refl _
    | cons c t2 =>
      have hb2 : (c :: t2).getLast? = some b := by
        rw [← List.getLast?_cons_cons]
        exact hb
      have hbmem : b ∈ c :: t2 := by
        obtain ⟨hne, hbl⟩ := List.mem_getLast?_eq_getLast (show b ∈ (c :: t2).getLast? from hb2)
        rw [hbl]
        exact List.getLast_mem hne
      rcases List.mem_cons.mp hx with rfl | hx2
      · exact (List.pairwise_cons.mp hp).1 b hbmem
      · exact ih b (List.pairwise_cons.mp hp).2 hb2 x hx2

/-- C10: `coverage_ok` sorts its argument in place: for every non-empty
series the list the caller is left with is a permutation of the input,
ascending by date, and is the same list whatever the verdict inputs
(`min_from_date`, today) are. -/
theorem coverage_ok_sorts_in_place {R : Type} (dateOf : R → String) (data : List R)
    (min_from_date : String) (today : Int) (h : data ≠ []) :
    List.Perm (coverage_ok dateOf data min_from_date today).1 data ∧
    ((coverage_ok dateOf data min_from_date today).1).Pairwise (dateLe dateOf) ∧
    (∀ mfd2 today2, (coverage_ok dateOf data min_from_date today).1 =
      (coverage_ok dateOf data mfd2 today2).1) := by
  cases data with
  | nil => exact absurd rfl h
  | cons a l =>
    exact ⟨List.perm_insertionSort _ _, List.sorted_insertionSort _ _, fun _ _ => rfl⟩

/-- Witness for C10 on a concrete two-point series in descending order. -/
theorem coverage_ok_sorts_in_place_witness :
    List.Perm (coverage_ok CloseRec.date
        [⟨"2023-01-02", .num 1⟩, ⟨"2023-01-01", .num 2⟩] "2024-01-01" 0).1
      [⟨"2023-01-02", .num 1⟩, ⟨"2023-01-01", .num 2⟩] ∧
    ((coverage_ok CloseRec.date
        [⟨"2023-01-02", .num 1⟩, ⟨"2023-01-01", .num 2⟩] "2024-01-01" 0).1).Pairwise
      (dateLe CloseRec.date) ∧
    (∀ mfd2 today2, (coverage_ok CloseRec.date
        [⟨"2023-01-02", .num 1⟩, ⟨"2023-01-01", .num 2⟩] "2024-01-01" 0).1 =
      (coverage_ok CloseRec.date
        [⟨"2023-01-02", .num 1⟩, ⟨"2023-01-01", .num 2⟩] mfd2 today2).1) :=
  coverage_ok_sorts_in_place CloseRec.date
    [⟨"2023-01-02", .num 1⟩, ⟨"2023-01-01", .num 2⟩] "2024-01-01" 0 (by decide)

/-- C2: the verdict of `coverage_ok` is `false` on the empty series, and
on a non-empty series it is `true` exactly when the series has at least
200 points, its earliest date is at most `min_from_date`, and the
business-day gap between its latest date and today is at most 1 (the
gap being 999 when the latest date does not parse). -/
theorem coverage_ok_verdict {R : Type} (dateOf : R → String) (data : List R)
    (min_from_date : String) (today : Int) (h : data ≠ []) :
    (coverage_ok dateOf [] min_from_date today).2 = false ∧
    ((coverage_ok dateOf data min_from_date today).2 = true ↔
      (200 ≤ data.length ∧
        (∃ r ∈ data, (∀ x ∈ data, sle (dateOf r) (dateOf x)) ∧
          sle (dateOf r) min_from_date) ∧
        (∃ r ∈ data, (∀ x ∈ data, sle (dateOf x) (dateOf r)) ∧
          busGap (dateOf r) today ≤ 1))) := by
  refine ⟨rfl, ?_⟩
  cases data with
  | nil => exact absurd rfl h
  | cons a l =>
    cases hs : (a :: l).insertionSort (dateLe dateOf) with
    | nil =>
      exfalso
      have := (List.perm_insertionSort (dateLe dateOf) (a :: l)).length_eq
      rw [hs] at this
      exact Nat.noConfusion this
    | cons b t =>
      have hperm : List.Perm (b :: t) (a :: l) := by
        rw [← hs]
        exact List.perm_insertionSort _ _
      have hsorted : (b :: t).Pairwise (dateLe dateOf) := by
        rw [← hs]
        exact List.sorted_insertionSort _ _
      have hlast : ∃ e, (b :: t).getLast? = some e := by
        cases hgl : (b :: t).getLast? with
        | none => exact absurd hgl (by simp)
        | some e => exact ⟨e, rfl⟩
      obtain ⟨e, he⟩ := hlast
      have hemem : e ∈ b :: t := by
        obtain ⟨hne, hbl⟩ := List.mem_getLast?_eq_getLast (show e ∈ (b :: t).getLast? from he)
        rw [hbl]
        exact List.getLast_mem hne
      have hverdict : (coverage_ok dateOf (a :: l) min_from_date today).2 =
          (decide (200 ≤ (b :: t).length) && strLe (dateOf b) min_from_date &&
            decide (busGap (dateOf e) today ≤ 1)) := by
        show (decide (200 ≤ ((a :: l).insertionSort (dateLe dateOf)).length) &&
          strLe ((((a :: l).insertionSort (dateLe dateOf)).head?.map dateOf).getD "")
            min_from_date &&
          decide (busGap ((((a :: l).insertionSort (dateLe dateOf)).getLast?.map
            dateOf).getD "") today ≤ 1)) = _
        rw [hs, he]
        rfl
      rw [hverdict]
      simp only [Bool.and_eq_true, decide_eq_true_eq]
      constructor
      · rintro ⟨⟨hlen, hfirst⟩, hgap⟩
        refine ⟨by rwa [hperm.length_eq] at hlen, ?_, ?_⟩
        · exact ⟨b, hperm.mem_iff.mp (List.mem_cons_self _ _),
            fun x hx => pairwise_head_le dateOf hsorted (hperm.mem_iff.mpr hx), hfirst⟩
        · exact ⟨e, hperm.mem_iff.mp hemem,
            fun x hx => pairwise_getLast_ge dateOf _ e hsorted he x (hperm.mem_iff.mpr hx),
            hgap⟩
      · rintro ⟨hlen, ⟨r1, hr1mem, hr1min, hr1⟩, ⟨r2, hr2mem, hr2max, hr2⟩⟩
        have hb1 : dateOf b = dateOf r1 :=
          string_data_inj (lexLe_antisymm _ _
            (pairwise_head_le dateOf hsorted (hperm.mem_iff.mpr hr1mem))
            (hr1min b (hperm.mem_iff.mp (List.mem_cons_self _ _))))
        have he2 : dateOf e = dateOf r2 :=
          string_data_inj (lexLe_antisymm _ _
            (hr2max e (hperm.mem_iff.mp hemem))
            (pairwise_getLast_ge dateOf _ e hsorted he r2 (hperm.mem_iff.mpr hr2mem)))
        refine ⟨⟨by rwa [hperm.length_eq], ?_⟩, ?_⟩
        · rw [hb1]
          exact hr1
        · rw [he2]
          exact hr2

/-- Witness for C2 on a concrete one-point series (too short, so the
verdict is false and the right-hand side fails on the length conjunct). -/
theorem coverage_ok_verdict_witness :
    (coverage_ok CloseRec.date ([] : List CloseRec) "2025-01-01" 19731).2 = false ∧
    ((coverage_ok CloseRec.date [⟨"2024-01-05", .num 1⟩] "2025-01-01" 19731).2 = true ↔
      (200 ≤ ([⟨"2024-01-05", .num 1⟩] : List CloseRec).length ∧
        (∃ r ∈ ([⟨"2024-01-05", .num 1⟩] : List CloseRec),
          (∀ x ∈ ([⟨"2024-01-05", .num 1⟩] : List CloseRec),
            sle (CloseRec.date r) (CloseRec.date x)) ∧
          sle (CloseRec.date r) "2025-01-01") ∧
        (∃ r ∈ ([⟨"2024-01-05", .num 1⟩] : List CloseRec),
          (∀ x ∈ ([⟨"2024-01-05", .num 1⟩] : List CloseRec),
            sle (CloseRec.date x) (CloseRec.date r)) ∧
          busGap (CloseRec.date r) 19731 ≤ 1))) :=
  coverage_ok_verdict CloseRec.date [⟨"2024-01-05", .num 1⟩] "2025-01-01" 19731 (by decide)

/-!
## Worker fetch and fallback (C7)
-/

lemma tryAdapters_cons_no_data {R : Type} (r : Except String (List R))
    (rest : List (Except String (List R)))
    (h : r = Except.ok [] ∨ ∃ e, r = Except.error e) :
    tryAdapters (r :: rest) = tryAdapters rest := by
  rcases h with rfl | ⟨e, rfl⟩ <;> rfl

lemma tryAdapters_all_no_data {R : Type} :
    ∀ (adapters : List (Except String (List R))),
      (∀ r ∈ adapters, r = Except.ok [] ∨ ∃ e, r = Except.error e) →
      tryAdapters adapters = [] := by
  intro adapters
  induction adapters with
  | nil => intro _; rfl
  | cons r rest ih =>
    intro h
    rw [tryAdapters_cons_no_data r rest (h r (List.mem_cons_self _ _))]
    exact ih (fun q hq => h q (List.mem_cons_of_mem _ hq))

/-- Counterexample for C7: an empty result array from the proxy worker
is raised as a fetch failure (`worker payload empty`), not returned as
an empty-series result. -/
theorem worker_empty_array_raises :
    fetch_daily_worker 200 (WorkerBody.jlist []) = Except.error "worker payload empty" ∧
    fetch_daily_worker 200 (WorkerBody.jlist []) ≠ Except.ok [] := by
  refine ⟨rfl, ?_⟩
  intro h
  exact Except.noConfusion ((rfl :
    fetch_daily_worker 200 (WorkerBody.jlist []) = Except.error "worker payload empty") ▸ h)

/-- C7 (amended): an HTTP 404 from the proxy yields an empty-series
result without error; an empty result array makes the worker fetch
raise instead, but the orchestrator treats an adapter error and an
empty adapter result alike and proceeds to the next provider. -/
theorem worker_404_and_empty_handling :
    (∀ b : WorkerBody, fetch_daily_worker 404 b = Except.ok []) ∧
    (∀ (r : Except String (List CloseRec)) (rest : List (Except String (List CloseRec))),
      (r = Except.ok [] ∨ ∃ e, r = Except.error e) →
      tryAdapters (r :: rest) = tryAdapters rest) :=
  ⟨fun _ => rfl, fun r rest h => tryAdapters_cons_no_data r rest h⟩

/-- Witness for C7 (amended) at concrete inputs. -/
theorem worker_404_and_empty_handling_witness :
    fetch_daily_worker 404 (WorkerBody.jlist []) = Except.ok [] ∧
    tryAdapters ((Except.error "boom" : Except String (List CloseRec)) ::
        [Except.ok [⟨"2024-06-01", .num 50⟩]]) =
      tryAdapters [Except.ok [⟨"2024-06-01", .num 50⟩]] := by
  have h := worker_404_and_empty_handling
  exact ⟨h.1 _, h.2 _ _ (Or.inr ⟨"boom", rfl⟩)⟩

/-!
## Quote snapshotter (C8)
-/

/-- C8 evaluated at the failing input: symbol AAA holds a previous quote
but its market is closed this run (it is not in the plan); symbol BBB
obtains a fresh quote that differs from its previous state, so the file
is rewritten — and the rewritten mapping no longer contains AAA at all,
although the previous mapping did. -/
theorem quotes_drop_unfetched_symbol :
    quotes_main [("AAA", ⟨some 42, some "2024-01-01T00:00:00Z", some "finnhub"⟩)]
        [("BBB", ⟨some 10, some "2025-01-02T00:00:00Z", some "finnhub"⟩)] true =
      some [("BBB", ⟨some 10, some "2025-01-02T00:00:00Z", some "finnhub"⟩)] ∧
    dlookup "AAA" ((quotes_main
        [("AAA", ⟨some 42, some "2024-01-01T00:00:00Z", some "finnhub"⟩)]
        [("BBB", ⟨some 10, some "2025-01-02T00:00:00Z", some "finnhub"⟩)] true).getD [])
      = none ∧
    dlookup "AAA" [("AAA", (⟨some 42, some "2024-01-01T00:00:00Z", some "finnhub"⟩ : QEntry))]
      = some ⟨some 42, some "2024-01-01T00:00:00Z", some "finnhub"⟩ :=
  ⟨rfl, rfl, rfl⟩

/-!
## Orchestrator behavior when no adapter yields data (C3)

Python's `list.sort` is stable, so sorting the existing series inside
`coverage_ok` before the merge cannot change which record wins per date;
the lemmas below prove that merging the sorted series with the empty
series gives the same artifact as merging the original one.
-/

section StableSort

variable {R A V : Type}

lemma lastNorm_filter_key (norm : A → Option (String × V)) (dateIn : R → A)
    (dateOf : R → String) (k : String)
    (hkey : ∀ r d v, norm (dateIn r) = some (d, v) → d = dateOf r) :
    ∀ l : List R,
      lastNorm norm (l.map dateIn) k =
        lastNorm norm ((l.filter (fun r => decide (dateOf r = k))).map dateIn) k := by
  intro l
  induction l with
  | nil => rfl
  | cons r t ih =>
    rw [List.map_cons, lastNorm_cons]
    by_cases hr : dateOf r = k
    · rw [List.filter_cons_of_pos (by simp [hr]), List.map_cons, lastNorm_cons, ih]
    · rw [List.filter_cons_of_neg (by simp [hr])]
      have hstep : lastStep norm k none (dateIn r) = none := by
        cases hn : norm (dateIn r) with
        | none => simp [lastStep, hn]
        | some p =>
          obtain ⟨d, v⟩ := p
          have hd := hkey r d v hn
          simp [lastStep, hn, hd, hr]
      rw [hstep, dor_none_right, ih]

lemma filter_insertionSort_key (dateOf : R → String) (k : String) (l : List R) :
    (l.insertionSort (dateLe dateOf)).filter (fun r => decide (dateOf r = k)) =
      l.filter (fun r => decide (dateOf r = k)) := by
  have hpair : (l.filter (fun r => decide (dateOf r = k))).Pairwise (dateLe dateOf) := by
    apply List.pairwise_of_forall_mem_list
    intro a ha b hb
    have hda : dateOf a = k := by simpa using (List.mem_filter.mp ha).2
    have hdb : dateOf b = k := by simpa using (List.mem_filter.mp hb).2
    show sle (dateOf a) (dateOf b)
    rw [hda, hdb]
    exact sle_refl k
  have hsub : List.Sublist (l.filter (fun r => decide (dateOf r = k)))
      (l.insertionSort (dateLe dateOf)) :=
    List.sublist_insertionSort hpair (List.filter_sublist l)
  have hidem : (l.filter (fun r => decide (dateOf r = k))).filter
      (fun r => decide (dateOf r = k)) = l.filter (fun r => decide (dateOf r = k)) := by
    rw [List.filter_filter]
    exact List.filter_congr (fun a _ => Bool.and_self _)
  have hsub2 : List.Sublist (l.filter (fun r => decide (dateOf r = k)))
      ((l.insertionSort (dateLe dateOf)).filter (fun r => decide (dateOf r = k))) := by
    have hf := List.Sublist.filter (fun r => decide (dateOf r = k)) hsub
    rwa [hidem] at hf
  have hlen : ((l.insertionSort (dateLe dateOf)).filter
      (fun r => decide (dateOf r = k))).length =
      (l.filter (fun r => decide (dateOf r = k))).length :=
    ((List.perm_insertionSort (dateLe dateOf) l).filter _).length_eq
  exact (hsub2.eq_of_length hlen.symm).symm

lemma dlookup_mergeGen_nil (norm : A → Option (String × V)) (S : List A) (k : String) :
    dlookup k (mergeGen norm S []) = lastNorm norm S k := by
  rw [dlookup_mergeGen]
  show dor (lastNorm norm [] k) _ = _
  rw [show lastNorm norm [] k = none from rfl, dor_none]

lemma mergeGen_nil_map_sorted (norm : A → Option (String × V)) (dateIn : R → A)
    (dateOf : R → String)
    (hkey : ∀ r d v, norm (dateIn r) = some (d, v) → d = dateOf r) (l : List R) :
    mergeGen norm ((l.insertionSort (dateLe dateOf)).map dateIn) [] =
      mergeGen norm (l.map dateIn) [] := by
  apply pairs_eq_of_sorted_nodup_lookup
  · exact sorted_keys_sortedRecords _
  · exact sorted_keys_sortedRecords _
  · exact nodup_keys_mergeGen _ _ _
  · exact nodup_keys_mergeGen _ _ _
  · intro k
    rw [dlookup_mergeGen_nil, dlookup_mergeGen_nil,
      lastNorm_filter_key norm dateIn dateOf k hkey (l.insertionSort (dateLe dateOf)),
      filter_insertionSort_key dateOf k l,
      ← lastNorm_filter_key norm dateIn dateOf k hkey l]

end StableSort

lemma normClose_toRaw_key : ∀ (r : CloseRec) (d : String) (v : JVal),
    normClose (closeRecToRaw r) = some (d, v) → d = r.date := by
  intro r d v h
  simp only [normClose, closeRecToRaw, strVal] at h
  by_cases hn : isNumber r.close
  · rw [if_pos hn] at h
    simp only [Option.some.injEq, Prod.mk.injEq] at h
    exact h.1.symm
  · rw [if_neg hn] at h
    cases h

lemma build_candle_date {date o hh ll c : JVal} {cd : Candle}
    (h : build_candle date o hh ll c = some cd) : strVal date = some cd.date := by
  unfold build_candle at h
  cases hds : strVal date with
  | none => simp [hds] at h
  | some ds =>
    simp only [hds] at h
    cases hcf : safe_float c with
    | none => simp [hcf] at h
    | some cf =>
      simp only [hcf] at h
      split at h <;> (cases h; rfl)

lemma normOhlc_toRaw_key : ∀ (c : Candle) (d : String) (cd : Candle),
    normOhlc (candleToRaw c) = some (d, cd) → d = c.date := by
  intro c d cd h
  obtain ⟨hd, hn⟩ := normOhlc_parts h
  have hdate := build_candle_date (show build_candle (.jstr c.date none) (.num c.open_f)
    (.num c.high_f) (.num c.low_f) (.num c.close_f) = some cd from hn)
  simp only [strVal, Option.some.injEq] at hdate
  rw [hd, ← hdate]

/-- Counterexample for C3: a two-point existing series stored in
descending order fails coverage, every adapter errors out, and the
orchestrator still writes — with re-sorted content, so the persisted
artifact is not byte-for-byte unchanged. -/
theorem no_data_still_rewrites_artifact :
    symbolStep [⟨"2023-01-02", .num 2⟩, ⟨"2023-01-01", .num 1⟩]
        [Except.error "worker failed"] "2024-01-01" 0 =
      some [⟨"2023-01-01", .num 1⟩, ⟨"2023-01-02", .num 2⟩] ∧
    symbolStep [⟨"2023-01-02", .num 2⟩, ⟨"2023-01-01", .num 1⟩]
        [Except.error "worker failed"] "2024-01-01" 0 ≠
      some [⟨"2023-01-02", .num 2⟩, ⟨"2023-01-01", .num 1⟩] := by
  refine ⟨rfl, ?_⟩
  decide

/-- C3 (amended): when every adapter yields no data (an empty series or
an error) and the existing series fails the coverage check, the
orchestrator writes `merge_history(existing, [])` — the sorted,
deduplicated, renormalized series — instead of leaving the artifact
untouched; when no existing series is present, nothing is written.
Both pipeline variants behave alike. -/
theorem no_data_write_behavior (existing : List CloseRec) (existingO : List Candle)
    (adapters : List (Except String (List CloseRec)))
    (adaptersO : List (Except String (List Candle)))
    (min_from_date : String) (today : Int)
    (ha : ∀ r ∈ adapters, r = Except.ok [] ∨ ∃ e, r = Except.error e)
    (haO : ∀ r ∈ adaptersO, r = Except.ok [] ∨ ∃ e, r = Except.error e)
    (hcov : (coverage_ok CloseRec.date existing min_from_date today).2 = false)
    (hcovO : (coverage_ok Candle.date existingO min_from_date today).2 = false) :
    symbolStep existing adapters min_from_date today =
      (if existing.isEmpty then none
       else some (merge_history (existing.map closeRecToRaw) [])) ∧
    symbolStepOhlc existingO adaptersO min_from_date today =
      (if existingO.isEmpty then none
       else some (merge_history_ohlc (existingO.map candleToRaw) [])) := by
  have hfr : tryAdapters adapters = [] := tryAdapters_all_no_data adapters ha
  have hfrO : tryAdapters adaptersO = [] := tryAdapters_all_no_data adaptersO haO
  constructor
  · cases existing with
    | nil => simp [symbolStep, coverage_ok, hfr]
    | cons a l =>
      simp only [symbolStep, hcov, Bool.false_eq_true, if_false, hfr, List.isEmpty_nil,
        List.isEmpty_cons, Bool.and_false, List.map_nil, List.isEmpty_eq_false]
      have hm : merge_history (((a :: l).insertionSort (dateLe CloseRec.date)).map
          closeRecToRaw) [] = merge_history ((a :: l).map closeRecToRaw) [] :=
        congrArg _ (mergeGen_nil_map_sorted normClose closeRecToRaw CloseRec.date
          normClose_toRaw_key (a :: l))
      show some (merge_history (((a :: l).insertionSort (dateLe CloseRec.date)).map
          closeRecToRaw) []) = _
      rw [hm]
  · cases existingO with
    | nil => simp [symbolStepOhlc, coverage_ok, hfrO]
    | cons a l =>
      simp only [symbolStepOhlc, hcovO, Bool.false_eq_true, if_false, hfrO, List.isEmpty_nil,
        List.isEmpty_cons, Bool.and_false, List.map_nil, List.isEmpty_eq_false]
      have hm : merge_history_ohlc (((a :: l).insertionSort (dateLe Candle.date)).map
          candleToRaw) [] = merge_history_ohlc ((a :: l).map candleToRaw) [] :=
        congrArg _ (mergeGen_nil_map_sorted normOhlc candleToRaw Candle.date
          normOhlc_toRaw_key (a :: l))
      show some (merge_history_ohlc (((a :: l).insertionSort (dateLe Candle.date)).map
          candleToRaw) []) = _
      rw [hm]

/-- Witness for C3 (amended) at concrete inputs, covering both the
existing-series case and the absent-series case. -/
theorem no_data_write_behavior_witness :
    symbolStep [⟨"2023-01-02", .num 2⟩, ⟨"2023-01-01", .num 1⟩]
        [Except.error "worker failed"] "2024-01-01" 0 =
      (if ([⟨"2023-01-02", .num 2⟩, ⟨"2023-01-01", .num 1⟩] : List CloseRec).isEmpty
       then none
       else some (merge_history
        (([⟨"2023-01-02", .num 2⟩, ⟨"2023-01-01", .num 1⟩] : List CloseRec).map
          closeRecToRaw) [])) ∧
    symbolStepOhlc [] [Except.error "worker failed"] "2024-01-01" 0 =
      (if ([] : List Candle).isEmpty then none
       else some (merge_history_ohlc (([] : List Candle).map candleToRaw) [])) := by
  have h := no_data_write_behavior [⟨"2023-01-02", .num 2⟩, ⟨"2023-01-01", .num 1⟩] []
    [Except.error "worker failed"] [Except.error "worker failed"] "2024-01-01" 0
    (by intro r hr; simp at hr; exact hr ▸ Or.inr ⟨"worker failed", rfl⟩)
    (by intro r hr; simp at hr; exact hr ▸ Or.inr ⟨"worker failed", rfl⟩)
    (by decide) (by decide)
  exact h

end XMarket
